import Mathlib

/-!
Verification of the intent-calibration / alignment layer of the
minimal_mood_dashboard repository.

The embedding models the intent module (`src/unnamed/part_000`) and the
recovery-code encoding of `src/js/crypto.js`.  JavaScript numbers are
modelled as real numbers where square roots occur (`cosineSim`) and as
rationals elsewhere (every JavaScript float is a rational, and the
heuristics use only field operations and comparisons).  JavaScript strings
are modelled as `List Char`.
-/

/- ================================================================
   Configuration (the CFG object of the intent module)
   ================================================================ -/

/-- CFG.intervalHours: minimum hours between check-ins. -/
def intervalHours : ℚ := 3

/-- CFG.windowStart: earliest local hour for check-in prompts. -/
def windowStart : Nat := 8

/-- CFG.windowEnd: latest local hour for check-in prompts (exclusive). -/
def windowEnd : Nat := 20

/-- CFG.alignThreshold: alignment scores strictly below this set the drift flag. -/
def alignThreshold : ℝ := 0.35

/-- CFG.driftWindowBlocks: look-back length for the alignment trend. -/
def driftWindowBlocks : Nat := 5

/- ================================================================
   Vector math (function cosineSim)
   ================================================================ -/

/-- The running sums of the loop in `cosineSim`: `dot`, `nA` and `nB` are all
instances of this indexed sum (`for (i = 0; i < a.length; i++)`), reading
`a[i]` as `List.getD` (the loop never reads out of range). -/
def loopSum (n : Nat) (a b : List ℝ) : ℝ :=
  ∑ i ∈ Finset.range n, a.getD i 0 * b.getD i 0

/-- Model of `cosineSim(a, b)`: `null` when the lengths differ, `0` when the
denominator `sqrt(nA) * sqrt(nB)` is zero, `dot / denom` otherwise. -/
noncomputable def cosineSim (a b : List ℝ) : Option ℝ :=
  if a.length = b.length then
    if Real.sqrt (loopSum a.length a a) * Real.sqrt (loopSum a.length b b) = 0 then
      some 0
    else
      some (loopSum a.length a b /
        (Real.sqrt (loopSum a.length a a) * Real.sqrt (loopSum a.length b b)))
  else none

/- ================================================================
   Bag-of-words fallback (STOPS, tokenize, textOverlapSim)
   ================================================================ -/

/-- ASCII model of the whitespace class trimmed by `String.prototype.trim`. -/
def isJsSpace (c : Char) : Bool :=
  c == ' ' || c == '\t' || c == '\n' || c == '\r'

/-- Model of `s.trim()` on a string represented as a character list. -/
def jsTrim (l : List Char) : List Char :=
  ((l.dropWhile isJsSpace).reverse.dropWhile isJsSpace).reverse

/-- The word-character class `\w` of the split regex: `[A-Za-z0-9_]`. -/
def isWordChar (c : Char) : Bool :=
  ('a' ≤ c && c ≤ 'z') || ('A' ≤ c && c ≤ 'Z') || ('0' ≤ c && c ≤ '9') || c == '_'

/-- ASCII model of `String.prototype.toLowerCase` on one character. -/
def jsToLower (c : Char) : Char :=
  if 'A' ≤ c && c ≤ 'Z' then Char.ofNat (c.toNat + 32) else c

/-- Maximal runs of word characters, with the run under construction carried
reversed in `acc`.  `s.split(/\W+/)` yields exactly these runs plus empty
strings (at a leading or trailing separator), and the empty strings are
discarded by the `length > 1` filter of `tokenize`. -/
def wordRunsAux : List Char → List Char → List (List Char)
  | [], acc => if acc.isEmpty then [] else [acc.reverse]
  | c :: cs, acc =>
    if isWordChar c then wordRunsAux cs (c :: acc)
    else if acc.isEmpty then wordRunsAux cs [] else acc.reverse :: wordRunsAux cs []

/-- The maximal word-character runs of a character list. -/
def wordRuns (l : List Char) : List (List Char) :=
  wordRunsAux l []

/-- The STOPS set of the fallback tokenizer. -/
def STOPS : List (List Char) :=
  ["the", "a", "an", "is", "it", "to", "in", "on", "for", "of", "and", "or",
   "i", "my", "me", "was", "did", "do", "be", "this", "that", "with", "have",
   "has", "had", "not", "but", "at", "by", "from", "so"].map (fun s => s.toList)

/-- Model of `tokenize(s)`: lower-case, split on non-word boundaries, keep
tokens longer than one character that are not stop words. -/
def tokenize (s : List Char) : List (List Char) :=
  (wordRuns (s.map jsToLower)).filter (fun w => decide (1 < w.length) && !(STOPS.contains w))

/-- Model of `Array.from(new Set(xs))`: first occurrences, in order. -/
def dedupFirst {α : Type} [DecidableEq α] (l : List α) : List α :=
  l.foldl (fun acc x => if x ∈ acc then acc else acc ++ [x]) []

/-- Term-frequency vector of a token list over a vocabulary:
`vocabArr.map(w => tok.filter(t => t === w).length)`. -/
def tfVec (tok vocab : List (List Char)) : List ℝ :=
  vocab.map (fun w => ((tok.filter (fun t => t == w)).length : ℝ))

/-- Model of `textOverlapSim(a, b)`: null on empty or all-whitespace input,
null when either filtered token list is empty, otherwise the cosine
similarity of the two term-frequency vectors over the union vocabulary. -/
noncomputable def textOverlapSim (a b : List Char) : Option ℝ :=
  if a.isEmpty || b.isEmpty || (jsTrim a).isEmpty || (jsTrim b).isEmpty then none
  else if (tokenize a).isEmpty || (tokenize b).isEmpty then none
  else
    cosineSim (tfVec (tokenize a) (dedupFirst (tokenize a ++ tokenize b)))
      (tfVec (tokenize b) (dedupFirst (tokenize a ++ tokenize b)))

/- ================================================================
   Drift flag (line `var driftFlag = ...` in handleCheckin)
   ================================================================ -/

/-- Model of the stored drift flag computed at check-in submission:
`(result.alignRetro !== null && result.alignRetro < CFG.alignThreshold) ? 1 : 0`. -/
noncomputable def driftFlagOf (alignRetro : Option ℝ) : ℤ :=
  match alignRetro with
  | none => 0
  | some s => if s < alignThreshold then 1 else 0

/- ================================================================
   Scheduling (functions isInWindow and shouldCheckIn)
   ================================================================ -/

/-- Model of `isInWindow()`: the current local hour `h` satisfies
`h >= CFG.windowStart && h < CFG.windowEnd`. -/
def isInWindow (h : Nat) : Bool :=
  decide (windowStart ≤ h) && decide (h < windowEnd)

/-- Model of `shouldCheckIn()`.  `h` is the current local hour, `nowMs` the
current time in milliseconds, `last` the timestamp (in milliseconds) of the
last check-in, if any.  Elapsed hours are `(nowMs - ts) / 3600000`. -/
def shouldCheckIn (h : Nat) (nowMs : ℚ) (last : Option ℚ) : Bool :=
  if !(isInWindow h) then false
  else
    match last with
    | none => true
    | some ts => decide (intervalHours ≤ (nowMs - ts) / 3600000)

/- ================================================================
   Collapse early-warning heuristic (computeCollapseWarning)
   ================================================================ -/

/-- One row of the `intent_checkins` table.  Rows are kept in insertion (id)
order; `ts` is the timestamp measured in days. -/
structure CheckinRow where
  ts : ℚ
  hoursSlept : Option ℚ
  alignmentRetro : Option ℚ

/-- One row of the PANAS `entries` table, kept in timestamp order. -/
structure MoodRow where
  ts : ℚ
  negativeScore : ℚ

/-- A flag produced by one of the three collapse signals.  The display
message string of the source is elided; `type` and `severity` identify the
flag. -/
structure CollapseFlag where
  type : String
  severity : String
deriving DecidableEq

/-- Arithmetic mean: `vals.reduce((a, b) => a + b, 0) / vals.length`. -/
def avgOf (l : List ℚ) : ℚ := l.sum / l.length

/-- Sleep query: non-null `hours_slept` of check-ins of the last 7 days.
`ORDER BY ts DESC` is dropped: only the mean of the result is used, which is
invariant under reordering. -/
def sleepQueryVals (db : List CheckinRow) (now : ℚ) : List ℚ :=
  db.filterMap (fun r => if now - 7 ≤ r.ts then r.hoursSlept else none)

/-- Signal 1, rolling 7-day sleep average: at least 3 samples, flag when the
mean is below 6.5, severity high when it is below 5.5, else medium. -/
def sleepFlag (vals : List ℚ) : Option CollapseFlag :=
  if 3 ≤ vals.length then
    if avgOf vals < 6.5 then
      some ⟨"sleep", if avgOf vals < 5.5 then "high" else "medium"⟩
    else none
  else none

/-- Strain query: `negative_score` of mood entries of the last 7 days, in
timestamp order (the entries list is kept in timestamp order). -/
def strainQueryVals (entries : List MoodRow) (now : ℚ) : List ℚ :=
  (entries.filter (fun e => now - 7 ≤ e.ts)).map (fun e => e.negativeScore)

/-- Signal 2, strain trend: at least 4 samples, split at `floor(n / 2)`, flag
(severity medium) when the recent mean exceeds 1.2 times the earlier mean. -/
def strainFlag (vals : List ℚ) : Option CollapseFlag :=
  if 4 ≤ vals.length then
    if avgOf (vals.take (vals.length / 2)) * 1.2 < avgOf (vals.drop (vals.length / 2)) then
      some ⟨"strain", "medium"⟩
    else none
  else none

/-- Alignment query: non-null `alignment_retro` values, newest first limited
to `CFG.driftWindowBlocks`, then reversed to oldest-to-newest by the
JavaScript `.reverse()`.  The query has no 7-day restriction. -/
def alignQueryVals (db : List CheckinRow) : List ℚ :=
  ((db.filterMap (fun r => r.alignmentRetro)).reverse.take driftWindowBlocks).reverse

/-- The alignment query as the specification words it: additionally
restricted to check-ins of the trailing 7-day window.  The code has no such
restriction; this definition exists only to compare the two. -/
def specAlignQueryVals (db : List CheckinRow) (now : ℚ) : List ℚ :=
  (((db.filter (fun r => now - 7 ≤ r.ts)).filterMap
      (fun r => r.alignmentRetro)).reverse.take driftWindowBlocks).reverse

/-- Signal 3, alignment decline: at least 3 samples, split at `floor(n / 2)`,
flag (severity medium) when the second half's mean is strictly below 0.8
times the first half's mean. -/
def alignFlag (vals : List ℚ) : Option CollapseFlag :=
  if 3 ≤ vals.length then
    if avgOf (vals.drop (vals.length / 2)) < avgOf (vals.take (vals.length / 2)) * 0.8 then
      some ⟨"alignment", "medium"⟩
    else none
  else none

/-- Result of `computeCollapseWarning()`: the flag list and the aggregate
decision `downshift: flags.length >= 2`. -/
structure CollapseResult where
  downshift : Bool
  flags : List CollapseFlag

/-- Model of `computeCollapseWarning()` over the stored data. -/
def computeCollapseWarning (db : List CheckinRow) (entries : List MoodRow) (now : ℚ) :
    CollapseResult :=
  ⟨decide (2 ≤ ((sleepFlag (sleepQueryVals db now)).toList
      ++ (strainFlag (strainQueryVals entries now)).toList
      ++ (alignFlag (alignQueryVals db)).toList).length),
   (sleepFlag (sleepQueryVals db now)).toList
      ++ (strainFlag (strainQueryVals entries now)).toList
      ++ (alignFlag (alignQueryVals db)).toList⟩

/-- The three visual states of the collapse banner. -/
inductive Banner
  | downshiftWarning
  | note
  | hidden
deriving DecidableEq

/-- Model of `renderCollapseWarning()`: the downshift banner when suggested,
the note banner when exactly one flag fired, hidden otherwise. -/
def renderCollapseWarning (c : CollapseResult) : Banner :=
  if c.downshift then Banner.downshiftWarning
  else if c.flags.length = 1 then Banner.note
  else Banner.hidden

/-- Example store: three check-ins at time 100 with 4 hours of sleep and no
alignment scores.  Exactly the sleep signal fires. -/
def exSleepDb : List CheckinRow :=
  [⟨100, some 4, none⟩, ⟨100, some 4, none⟩, ⟨100, some 4, none⟩]

/-- Example store: three check-ins with declining non-null alignment scores,
all more than 7 days old relative to time 100. -/
def exOldDb : List CheckinRow :=
  [⟨0, none, some 1⟩, ⟨1, none, some 1⟩, ⟨2, none, some (1 / 10)⟩]

/- ================================================================
   Recovery-code encoding (src/js/crypto.js)
   ================================================================ -/

/-- The RFC 4648 base32 alphabet of crypto.js. -/
def B32 : List Char := "ABCDEFGHIJKLMNOPQRSTUVWXYZ234567".toList

/-- Most-significant-bit-first bit string of width `w` for `n`: the model of
`n.toString(2).padStart(w, '0')` for `n < 2 ^ w`. -/
def natToBits : Nat → Nat → List Bool
  | 0, _ => []
  | w + 1, n => natToBits w (n / 2) ++ [n % 2 == 1]

/-- Model of `parseInt(bits, 2)` on a most-significant-bit-first bit string. -/
def bitsToNat (l : List Bool) : Nat :=
  l.foldl (fun acc b => 2 * acc + b.toNat) 0

/-- Split a bit string into 5-bit chunks, the last chunk right-padded with
zeros (`chunk += '00000'.substr(0, 5 - chunk.length)`); `acc` carries the
chunk under construction, reversed. -/
def chunk5Aux : List Bool → List Bool → List (List Bool)
  | [], acc =>
    if acc.isEmpty then [] else [acc.reverse ++ List.replicate (5 - acc.length) false]
  | b :: bs, acc =>
    if acc.length = 4 then (acc.reverse ++ [b]) :: chunk5Aux bs []
    else chunk5Aux bs (b :: acc)

/-- Model of `bytesToBase32(bytes)`: concatenate the 8-bit strings of the
bytes, split into zero-padded 5-bit chunks, and map each chunk through the
alphabet (`B32[parseInt(chunk, 2)]`). -/
def bytesToBase32 (bytes : List Nat) : List Char :=
  (chunk5Aux ((bytes.map (natToBits 8)).flatten) []).map
    (fun c => B32.getD (bitsToNat c) 'A')

/-- ASCII model of `String.prototype.toUpperCase` on one character. -/
def jsToUpper (c : Char) : Char :=
  if 'a' ≤ c && c ≤ 'z' then Char.ofNat (c.toNat - 32) else c

/-- The character class kept by the `[^A-Z2-7]` strip of `base32ToBytes`. -/
def isB32Char (c : Char) : Bool :=
  ('A' ≤ c && c ≤ 'Z') || ('2' ≤ c && c ≤ '7')

/-- First stage of `base32ToBytes(str)`: `str.toUpperCase().replace(/[^A-Z2-7]/g, '')`. -/
def b32CleanOf (s : List Char) : List Char :=
  (s.map jsToUpper).filter isB32Char

/-- Second stage of `base32ToBytes(str)`: the concatenated 5-bit strings of
the alphabet indices of the cleaned characters (a character not found in the
alphabet contributes nothing, which cannot happen after the strip). -/
def b32BitsOf (s : List Char) : List Bool :=
  ((b32CleanOf s).map (fun c =>
    if c ∈ B32 then natToBits 5 (B32.indexOf c) else [])).flatten

/-- Model of `base32ToBytes(str)`: parse `floor(bits.length / 8)` bytes of 8
bits each out of the index bit string. -/
def base32ToBytes (s : List Char) : List Nat :=
  (List.range ((b32BitsOf s).length / 8)).map
    (fun j => bitsToNat (((b32BitsOf s).drop (8 * j)).take 8))

/-- Chunk a character list into groups of at most 4 (`.match(/.{1,4}/g)`);
`acc` carries the group under construction, reversed. -/
def group4Aux : List Char → List Char → List (List Char)
  | [], acc => if acc.isEmpty then [] else [acc.reverse]
  | c :: cs, acc =>
    if acc.length = 3 then (acc.reverse ++ [c]) :: group4Aux cs []
    else group4Aux cs (c :: acc)

/-- Model of `Array.prototype.join(sep)` with a dash separator. -/
def joinDash : List (List Char) → List Char
  | [] => []
  | [g] => g
  | g :: gs => g ++ '-' :: joinDash gs

/-- Model of `keyToRecoveryCode` applied to the raw exported key bytes:
base32, grouped in fours, joined with dashes. -/
def keyToRecoveryCode (raw : List Nat) : List Char :=
  joinDash (group4Aux (bytesToBase32 raw) [])

/-- Model of `code.replace(/[-\s]/g, '').toUpperCase()` in `recoveryCodeToKey`. -/
def recoveryClean (code : List Char) : List Char :=
  (code.filter (fun c => !(c == '-' || isJsSpace c))).map jsToUpper

/-- Model of `recoveryCodeToKey` down to the raw key bytes: strip dashes and
whitespace, uppercase, decode, and accept only an exactly 32-byte result. -/
def recoveryCodeToKey (code : List Char) : Option (List Nat) :=
  if (base32ToBytes (recoveryClean code)).length = 32 then
    some (base32ToBytes (recoveryClean code))
  else none

/- ================================================================
   Theorems
   ================================================================ -/

/-- C1: the stored drift flag is 1 iff the alignment-to-prior-intent score is
not null and strictly below the 0.35 threshold; a score exactly equal to the
threshold does not set the flag, and the stored value is always 0 or 1. -/
theorem drift_flag_iff_score_below_threshold :
    alignThreshold = 35 / 100 ∧
    (∀ a : Option ℝ, driftFlagOf a = 1 ↔ ∃ s, a = some s ∧ s < alignThreshold) ∧
    (∀ a : Option ℝ, driftFlagOf a = 0 ∨ driftFlagOf a = 1) ∧
    driftFlagOf (some alignThreshold) = 0 := by
  refine ⟨by norm_num [alignThreshold], ?_, ?_, ?_⟩
  · intro a
    cases a with
    | none => simp [driftFlagOf]
    | some s =>
      by_cases h : s < alignThreshold
      · constructor
        · intro _; exact ⟨s, rfl, h⟩
        · intro _; simp [driftFlagOf, if_pos h]
      · constructor
        · intro h1
          simp only [driftFlagOf, if_neg h] at h1
          exact absurd h1 (by norm_num)
        · rintro ⟨s', hs', hlt⟩
          cases Option.some.inj hs'
          exact absurd hlt h
  · intro a
    cases a with
    | none => exact Or.inl rfl
    | some s =>
      by_cases h : s < alignThreshold
      · exact Or.inr (by simp [driftFlagOf, if_pos h])
      · exact Or.inl (by simp [driftFlagOf, if_neg h])
  · simp [driftFlagOf]

/-- C8: the check-in is due iff the local hour lies in [8, 20) and either no
prior check-in exists or at least 3 hours elapsed since its timestamp; at
local hour 21 it is never due. -/
theorem shouldCheckIn_due_iff :
    (∀ (h : Nat) (nowMs : ℚ) (last : Option ℚ),
      shouldCheckIn h nowMs last = true ↔
        (8 ≤ h ∧ h < 20 ∧
          (last = none ∨ ∃ ts, last = some ts ∧ 3 ≤ (nowMs - ts) / 3600000))) ∧
    (∀ (nowMs : ℚ) (last : Option ℚ), shouldCheckIn 21 nowMs last = false) := by
  constructor
  · intro h nowMs last
    cases last with
    | none =>
      simp [shouldCheckIn, isInWindow, windowStart, windowEnd]
    | some ts =>
      simp [shouldCheckIn, isInWindow, windowStart, windowEnd, intervalHours]
      tauto
  · intro nowMs last
    cases last <;> simp [shouldCheckIn, isInWindow, windowStart, windowEnd]

/-- C9: for equal-length vectors `cosineSim` always returns a value (never
null, never a division error), and when either vector is all zeros (zero
norm) the guarded division returns exactly 0. -/
theorem cosineSim_total_and_zero_guard :
    (∀ a b : List ℝ, a.length = b.length → ∃ r, cosineSim a b = some r) ∧
    (∀ a b : List ℝ, a.length = b.length →
      ((∀ x ∈ a, x = 0) ∨ (∀ x ∈ b, x = 0)) → cosineSim a b = some 0) := by
  have hzero : ∀ (n : Nat) (v w : List ℝ), (∀ x ∈ v, x = 0) → loopSum n v w = 0 := by
    intro n v w hv
    refine Finset.sum_eq_zero ?_
    intro i _
    have : v.getD i 0 = 0 := by
      rcases lt_or_le i v.length with hi | hi
      · rw [List.getD_eq_getElem v 0 hi]
        exact hv _ (List.getElem_mem hi)
      · rw [List.getD_eq_default v 0 hi]
    rw [this, zero_mul]
  constructor
  · intro a b hlen
    rw [cosineSim, if_pos hlen]
    by_cases hd :
        Real.sqrt (loopSum a.length a a) * Real.sqrt (loopSum a.length b b) = 0
    · exact ⟨0, if_pos hd⟩
    · exact ⟨_, if_neg hd⟩
  · intro a b hlen hz
    rw [cosineSim, if_pos hlen]
    have hd : Real.sqrt (loopSum a.length a a) * Real.sqrt (loopSum a.length b b) = 0 := by
      rcases hz with hz | hz
      · rw [hzero _ _ _ hz, Real.sqrt_zero, zero_mul]
      · rw [hzero _ _ _ hz, Real.sqrt_zero, mul_zero]
    exact if_pos hd

/-- Closed witness for C9 at the all-zero vectors of length 2. -/
theorem cosineSim_total_and_zero_guard_witness :
    cosineSim [(0 : ℝ), 0] [0, 0] = some 0 :=
  cosineSim_total_and_zero_guard.2 [0, 0] [0, 0] rfl (Or.inl (by simp))

/-- C4 counterexample: the cosine strategy can return a value outside [0, 1]
(on the vectors [1] and [-1] it returns -1), so "each similarity strategy
returns either null or a scalar in [0,1]" fails for the embedding strategy. -/
theorem cosineSim_range_counterexample :
    cosineSim [(1 : ℝ)] [(-1 : ℝ)] = some (-1) ∧ ((-1 : ℝ) < 0) := by
  constructor
  · have hlen : ([(1 : ℝ)] : List ℝ).length = ([(-1 : ℝ)] : List ℝ).length := rfl
    rw [cosineSim, if_pos hlen]
    have e : ([(1 : ℝ)] : List ℝ).length = 1 := rfl
    rw [e]
    have h1 : loopSum 1 [(1 : ℝ)] [(1 : ℝ)] = 1 := by simp [loopSum]
    have h2 : loopSum 1 [(-1 : ℝ)] [(-1 : ℝ)] = 1 := by simp [loopSum]
    have h3 : loopSum 1 [(1 : ℝ)] [(-1 : ℝ)] = -1 := by simp [loopSum]
    rw [h1, h2, h3, Real.sqrt_one, mul_one, if_neg one_ne_zero]
    norm_num
  · norm_num

/- ================================================================
   Cauchy-Schwarz facts about the cosine loop sums
   ================================================================ -/

/-- The sum of squares accumulated by the cosine loop is nonnegative. -/
theorem loopSum_self_nonneg (n : Nat) (a : List ℝ) : 0 ≤ loopSum n a a :=
  Finset.sum_nonneg fun _ _ => mul_self_nonneg _

/-- Cauchy-Schwarz upper bound for the cosine numerator. -/
theorem loopSum_le_sqrt_mul_sqrt (n : Nat) (a b : List ℝ) :
    loopSum n a b ≤ Real.sqrt (loopSum n a a) * Real.sqrt (loopSum n b b) := by
  have h := Real.sum_mul_le_sqrt_mul_sqrt (Finset.range n)
    (fun i => a.getD i 0) (fun i => b.getD i 0)
  simpa only [loopSum, pow_two] using h

/-- Cauchy-Schwarz lower bound for the cosine numerator. -/
theorem neg_sqrt_le_loopSum (n : Nat) (a b : List ℝ) :
    -(Real.sqrt (loopSum n a a) * Real.sqrt (loopSum n b b)) ≤ loopSum n a b := by
  have h := Real.sum_mul_le_sqrt_mul_sqrt (Finset.range n)
    (fun i => a.getD i 0) (fun i => -b.getD i 0)
  simp only [pow_two, mul_neg, neg_mul, neg_neg, Finset.sum_neg_distrib] at h
  simp only [loopSum]
  linarith

/-- `cosineSim` is null exactly on length-mismatched inputs. -/
theorem cosineSim_eq_none_iff (a b : List ℝ) :
    cosineSim a b = none ↔ a.length ≠ b.length := by
  rw [cosineSim]
  split_ifs with hlen hd
  · simp [hlen]
  · simp [hlen]
  · simp [hlen]

/-- Any value returned by `cosineSim` lies in [-1, 1]. -/
theorem cosineSim_bounds {a b : List ℝ} {r : ℝ} (h : cosineSim a b = some r) :
    -1 ≤ r ∧ r ≤ 1 := by
  rw [cosineSim] at h
  by_cases hlen : a.length = b.length
  · rw [if_pos hlen] at h
    by_cases hd :
        Real.sqrt (loopSum a.length a a) * Real.sqrt (loopSum a.length b b) = 0
    · rw [if_pos hd] at h
      cases Option.some.inj h
      norm_num
    · rw [if_neg hd] at h
      cases Option.some.inj h
      have hnn : 0 ≤ Real.sqrt (loopSum a.length a a) * Real.sqrt (loopSum a.length b b) :=
        mul_nonneg (Real.sqrt_nonneg _) (Real.sqrt_nonneg _)
      have hpos :
          0 < Real.sqrt (loopSum a.length a a) * Real.sqrt (loopSum a.length b b) :=
        lt_of_le_of_ne hnn (Ne.symm hd)
      constructor
      · rw [le_div_iff₀ hpos]
        have := neg_sqrt_le_loopSum a.length a b
        linarith
      · rw [div_le_one hpos]
        exact loopSum_le_sqrt_mul_sqrt a.length a b
  · rw [if_neg hlen] at h
    exact Option.noConfusion h

/-- `cosineSim` is symmetric in its two arguments. -/
theorem cosineSim_comm (a b : List ℝ) : cosineSim a b = cosineSim b a := by
  by_cases hlen : a.length = b.length
  · rw [cosineSim, cosineSim, if_pos hlen, if_pos hlen.symm]
    have hbb : loopSum b.length b b = loopSum a.length b b := by rw [hlen]
    have haa : loopSum b.length a a = loopSum a.length a a := by rw [hlen]
    have hab : loopSum b.length b a = loopSum a.length a b := by
      rw [← hlen]
      exact Finset.sum_congr rfl fun i _ => mul_comm _ _
    rw [hbb, haa, hab,
      mul_comm (Real.sqrt (loopSum a.length b b)) (Real.sqrt (loopSum a.length a a))]
  · rw [cosineSim, cosineSim, if_neg hlen, if_neg (fun hh => hlen hh.symm)]

/-- On a vector with a nonzero coordinate, self-cosine-similarity is 1. -/
theorem cosineSim_self {a : List ℝ} (h : ∃ x ∈ a, x ≠ 0) : cosineSim a a = some 1 := by
  have hpos : 0 < loopSum a.length a a := by
    rcases h with ⟨x, hx, hxne⟩
    rcases List.mem_iff_getElem.mp hx with ⟨i, hi, hieq⟩
    refine Finset.sum_pos' (fun j _ => mul_self_nonneg _) ⟨i, Finset.mem_range.mpr hi, ?_⟩
    rw [List.getD_eq_getElem a 0 hi, hieq]
    exact mul_self_pos.mpr hxne
  rw [cosineSim, if_pos rfl]
  have hsq : Real.sqrt (loopSum a.length a a) * Real.sqrt (loopSum a.length a a)
      = loopSum a.length a a := Real.mul_self_sqrt hpos.le
  rw [if_neg (by rw [hsq]; exact hpos.ne'), hsq, div_self hpos.ne']

/-- On coordinatewise-nonnegative vectors, `cosineSim` returns a nonnegative value. -/
theorem cosineSim_nonneg {a b : List ℝ} {r : ℝ} (ha : ∀ x ∈ a, 0 ≤ x)
    (hb : ∀ x ∈ b, 0 ≤ x) (h : cosineSim a b = some r) : 0 ≤ r := by
  have hdot : 0 ≤ loopSum a.length a b := by
    refine Finset.sum_nonneg fun i _ => mul_nonneg ?_ ?_
    · rcases lt_or_le i a.length with hi | hi
      · rw [List.getD_eq_getElem a 0 hi]; exact ha _ (List.getElem_mem hi)
      · rw [List.getD_eq_default a 0 hi]
    · rcases lt_or_le i b.length with hi | hi
      · rw [List.getD_eq_getElem b 0 hi]; exact hb _ (List.getElem_mem hi)
      · rw [List.getD_eq_default b 0 hi]
  rw [cosineSim] at h
  by_cases hlen : a.length = b.length
  · rw [if_pos hlen] at h
    by_cases hd :
        Real.sqrt (loopSum a.length a a) * Real.sqrt (loopSum a.length b b) = 0
    · rw [if_pos hd] at h
      cases Option.some.inj h
      norm_num
    · rw [if_neg hd] at h
      cases Option.some.inj h
      exact div_nonneg hdot (mul_nonneg (Real.sqrt_nonneg _) (Real.sqrt_nonneg _))
  · rw [if_neg hlen] at h
    exact Option.noConfusion h

/- ================================================================
   Facts about the fallback vocabulary and vectors
   ================================================================ -/

/-- Membership in the deduplication fold. -/
theorem foldl_dedup_mem {α : Type} [DecidableEq α] (x : α) (l : List α) :
    ∀ acc : List α,
      (x ∈ l.foldl (fun acc x => if x ∈ acc then acc else acc ++ [x]) acc ↔
        x ∈ acc ∨ x ∈ l) := by
  induction l with
  | nil => intro acc; simp
  | cons y ys ih =>
    intro acc
    simp only [List.foldl_cons]
    by_cases hy : y ∈ acc
    · rw [if_pos hy, ih acc]
      constructor
      · rintro (h | h)
        · exact Or.inl h
        · exact Or.inr (List.mem_cons_of_mem _ h)
      · rintro (h | h)
        · exact Or.inl h
        · rcases List.mem_cons.mp h with rfl | h2
          · exact Or.inl hy
          · exact Or.inr h2
    · rw [if_neg hy, ih (acc ++ [y])]
      simp only [List.mem_append, List.mem_cons, List.mem_singleton]
      tauto

/-- `dedupFirst` preserves membership. -/
theorem mem_dedupFirst {α : Type} [DecidableEq α] {x : α} {l : List α} :
    x ∈ dedupFirst l ↔ x ∈ l := by
  rw [dedupFirst, foldl_dedup_mem]
  simp

/-- Reading a coordinate of a term-frequency vector. -/
theorem tfVec_getD (tok vocab : List (List Char)) (i : Nat) (hi : i < vocab.length) :
    (tfVec tok vocab).getD i 0 = ((tok.filter (fun t => t == vocab[i])).length : ℝ) := by
  have hi' : i < (tfVec tok vocab).length := by simpa [tfVec] using hi
  rw [List.getD_eq_getElem _ _ hi']
  simp [tfVec]

/-- The filter of the term-frequency map counts occurrences. -/
theorem filter_beq_length_eq_count (tok : List (List Char)) (w : List Char) :
    (tok.filter (fun t => t == w)).length = tok.count w := by
  simp [List.count_eq_countP, List.countP_eq_length_filter]

/-- The self inner product of a term-frequency vector is positive as soon as
some vocabulary entry occurs in the token list. -/
theorem tfVec_loopSum_self_pos {vocab tok : List (List Char)} {t : List Char}
    (ht : t ∈ tok) (htv : t ∈ vocab) :
    0 < loopSum vocab.length (tfVec tok vocab) (tfVec tok vocab) := by
  rcases List.mem_iff_getElem.mp htv with ⟨i, hi, hieq⟩
  refine Finset.sum_pos' (fun j _ => mul_self_nonneg _) ⟨i, Finset.mem_range.mpr hi, ?_⟩
  rw [tfVec_getD _ _ _ hi, filter_beq_length_eq_count, hieq]
  have hc : 0 < tok.count t := List.count_pos_iff.mpr ht
  have hcast : (0 : ℝ) < (tok.count t : ℝ) := by exact_mod_cast hc
  exact mul_pos hcast hcast

/-- Token-overlap similarity of texts with disjoint token vocabularies is 0. -/
theorem textOverlapSim_disjoint_eq_zero {a b : List Char}
    (hta : jsTrim a ≠ []) (htb : jsTrim b ≠ [])
    (hka : tokenize a ≠ []) (hkb : tokenize b ≠ [])
    (hdisj : ∀ w ∈ tokenize a, w ∉ tokenize b) :
    textOverlapSim a b = some 0 := by
  have hane : a ≠ [] := by intro h; subst h; exact hta rfl
  have hbne : b ≠ [] := by intro h; subst h; exact htb rfl
  rw [textOverlapSim, if_neg (by simp [hane, hbne, hta, htb]),
    if_neg (by simp [hka, hkb])]
  have hlen : (tfVec (tokenize a) (dedupFirst (tokenize a ++ tokenize b))).length
      = (tfVec (tokenize b) (dedupFirst (tokenize a ++ tokenize b))).length := by
    simp [tfVec]
  have hlenA : (tfVec (tokenize a) (dedupFirst (tokenize a ++ tokenize b))).length
      = (dedupFirst (tokenize a ++ tokenize b)).length := by
    simp [tfVec]
  rw [cosineSim, if_pos hlen, hlenA]
  have hdot : loopSum (dedupFirst (tokenize a ++ tokenize b)).length
      (tfVec (tokenize a) (dedupFirst (tokenize a ++ tokenize b)))
      (tfVec (tokenize b) (dedupFirst (tokenize a ++ tokenize b))) = 0 := by
    refine Finset.sum_eq_zero fun i hi => ?_
    rw [Finset.mem_range] at hi
    rw [tfVec_getD _ _ _ hi, tfVec_getD _ _ _ hi,
      filter_beq_length_eq_count, filter_beq_length_eq_count]
    have hmem : (dedupFirst (tokenize a ++ tokenize b))[i] ∈ tokenize a ++ tokenize b :=
      mem_dedupFirst.mp (List.getElem_mem hi)
    rcases List.mem_append.mp hmem with hmA | hmB
    · have hzb : (tokenize b).count ((dedupFirst (tokenize a ++ tokenize b))[i]) = 0 :=
        List.count_eq_zero.mpr (hdisj _ hmA)
      rw [hzb]
      simp
    · have hnotA : (dedupFirst (tokenize a ++ tokenize b))[i] ∉ tokenize a :=
        fun hmA => hdisj _ hmA hmB
      have hza : (tokenize a).count ((dedupFirst (tokenize a ++ tokenize b))[i]) = 0 :=
        List.count_eq_zero.mpr hnotA
      rw [hza]
      simp
  have htokA : ∃ t, t ∈ tokenize a := by
    cases hk : tokenize a with
    | nil => exact absurd hk hka
    | cons t ts => exact ⟨t, hk ▸ List.mem_cons_self t ts⟩
  have htokB : ∃ t, t ∈ tokenize b := by
    cases hk : tokenize b with
    | nil => exact absurd hk hkb
    | cons t ts => exact ⟨t, hk ▸ List.mem_cons_self t ts⟩
  rcases htokA with ⟨ta, hta'⟩
  rcases htokB with ⟨tb, htb'⟩
  have hApos := tfVec_loopSum_self_pos hta'
    (mem_dedupFirst.mpr (List.mem_append_left (tokenize b) hta'))
  have hBpos := tfVec_loopSum_self_pos htb'
    (mem_dedupFirst.mpr (List.mem_append_right (tokenize a) htb'))
  rw [if_neg (mul_pos (Real.sqrt_pos.mpr hApos) (Real.sqrt_pos.mpr hBpos)).ne', hdot,
    zero_div]

/- ================================================================
   Claim theorems: similarity strategies
   ================================================================ -/

/-- C4 (amended): each strategy returns null or a scalar, the cosine strategy
within [-1, 1] and the token-overlap strategy within [0, 1]; null on length
mismatch, on empty or all-whitespace text, and on empty filtered token sets. -/
theorem similarity_null_semantics_and_range :
    (∀ a b : List ℝ, a.length ≠ b.length → cosineSim a b = none) ∧
    (∀ (a b : List ℝ) (r : ℝ), cosineSim a b = some r → -1 ≤ r ∧ r ≤ 1) ∧
    (∀ a b : List Char,
      a = [] ∨ b = [] ∨ jsTrim a = [] ∨ jsTrim b = [] → textOverlapSim a b = none) ∧
    (∀ a b : List Char, tokenize a = [] ∨ tokenize b = [] → textOverlapSim a b = none) ∧
    (∀ (a b : List Char) (r : ℝ), textOverlapSim a b = some r → 0 ≤ r ∧ r ≤ 1) := by
  refine ⟨?_, ?_, ?_, ?_, ?_⟩
  · intro a b h
    exact (cosineSim_eq_none_iff a b).mpr h
  · intro a b r h
    exact cosineSim_bounds h
  · intro a b h
    rw [textOverlapSim, if_pos ?_]
    rcases h with h | h | h | h <;> simp [h]
  · intro a b h
    by_cases h0 : (a.isEmpty || b.isEmpty || (jsTrim a).isEmpty || (jsTrim b).isEmpty) = true
    · rw [textOverlapSim, if_pos h0]
    · rw [textOverlapSim, if_neg h0, if_pos ?_]
      rcases h with h | h <;> simp [h]
  · intro a b r h
    rw [textOverlapSim] at h
    split_ifs at h
    have hnn : ∀ v : List (List Char), ∀ x ∈ tfVec v (dedupFirst (tokenize a ++ tokenize b)),
        (0 : ℝ) ≤ x := by
      intro v x hx
      rcases List.mem_map.mp hx with ⟨w, _, rfl⟩
      exact Nat.cast_nonneg _
    exact ⟨cosineSim_nonneg (hnn _) (hnn _) h, (cosineSim_bounds h).2⟩

/-- Closed witness for C4 at a concrete length-mismatched input. -/
theorem similarity_null_semantics_and_range_witness :
    cosineSim [(1 : ℝ)] [] = none :=
  similarity_null_semantics_and_range.1 [1] [] (by decide)

/-- C5: cosine similarity is symmetric, bounded in [-1, 1], and equals 1 on
any nonzero vector against itself; hence token-overlap similarity of a
non-empty, non-stop-word text with itself is 1 and sets no drift flag. -/
theorem cosine_symmetry_bounds_self_one :
    (∀ a b : List ℝ, cosineSim a b = cosineSim b a) ∧
    (∀ (a b : List ℝ) (r : ℝ), cosineSim a b = some r → -1 ≤ r ∧ r ≤ 1) ∧
    (∀ a : List ℝ, (∃ x ∈ a, x ≠ 0) → cosineSim a a = some 1) ∧
    (∀ t : List Char, jsTrim t ≠ [] → tokenize t ≠ [] →
      textOverlapSim t t = some 1 ∧ driftFlagOf (textOverlapSim t t) = 0) := by
  refine ⟨cosineSim_comm, fun a b r h => cosineSim_bounds h, fun a h => cosineSim_self h, ?_⟩
  intro t htt hkt
  have htne : t ≠ [] := by intro h; subst h; exact htt rfl
  have hone : textOverlapSim t t = some 1 := by
    rw [textOverlapSim, if_neg (by simp [htne, htt]), if_neg (by simp [hkt])]
    refine cosineSim_self ?_
    have htok : ∃ t0, t0 ∈ tokenize t := by
      cases hk : tokenize t with
      | nil => exact absurd hk hkt
      | cons t0 ts => exact ⟨t0, hk ▸ List.mem_cons_self t0 ts⟩
    rcases htok with ⟨t0, ht0⟩
    have ht0v : t0 ∈ dedupFirst (tokenize t ++ tokenize t) :=
      mem_dedupFirst.mpr (List.mem_append_left _ ht0)
    refine ⟨((tokenize t).filter (fun x => x == t0)).length,
      List.mem_map.mpr ⟨t0, ht0v, rfl⟩, ?_⟩
    rw [filter_beq_length_eq_count]
    have hc : 0 < (tokenize t).count t0 := List.count_pos_iff.mpr ht0
    exact_mod_cast hc.ne'
  refine ⟨hone, ?_⟩
  rw [hone]
  norm_num [driftFlagOf, alignThreshold]

/-- Closed witness for C5: the scenario text against itself scores 1 with no
drift flag. -/
theorem cosine_symmetry_bounds_self_one_witness :
    textOverlapSim ("ship parsing module".toList) ("ship parsing module".toList) = some 1 ∧
    driftFlagOf
      (textOverlapSim ("ship parsing module".toList) ("ship parsing module".toList)) = 0 :=
  cosine_symmetry_bounds_self_one.2.2.2 _ (by decide) (by decide)

/-- C7: for non-empty texts with disjoint non-empty filtered vocabularies the
token-overlap similarity is exactly 0, and 0 being below the 0.35 threshold,
the drift flag is set. -/
theorem disjoint_vocab_zero_similarity_drift :
    ∀ a b : List Char, jsTrim a ≠ [] → jsTrim b ≠ [] →
      tokenize a ≠ [] → tokenize b ≠ [] →
      (∀ w ∈ tokenize a, w ∉ tokenize b) →
      textOverlapSim a b = some 0 ∧ driftFlagOf (textOverlapSim a b) = 1 := by
  intro a b hta htb hka hkb hdisj
  have h0 := textOverlapSim_disjoint_eq_zero hta htb hka hkb hdisj
  refine ⟨h0, ?_⟩
  rw [h0]
  norm_num [driftFlagOf, alignThreshold]

/-- Closed witness for C7 at the scenario texts. -/
theorem disjoint_vocab_zero_similarity_drift_witness :
    textOverlapSim ("rest and recover".toList)
        ("debugged production incident all night".toList) = some 0 ∧
    driftFlagOf (textOverlapSim ("rest and recover".toList)
        ("debugged production incident all night".toList)) = 1 :=
  disjoint_vocab_zero_similarity_drift _ _ (by decide) (by decide) (by decide)
    (by decide) (by decide)

/- ================================================================
   Claim theorems: collapse heuristic
   ================================================================ -/

/-- C2: the aggregate downshift suggestion is true iff at least 2 of the 3
signals produced a flag; when exactly 1 flag fired, downshift is false and
the lesser note banner is shown instead. -/
theorem downshift_iff_two_of_three_flags :
    ∀ (db : List CheckinRow) (entries : List MoodRow) (now : ℚ),
      ((computeCollapseWarning db entries now).downshift = true ↔
        2 ≤ (sleepFlag (sleepQueryVals db now)).toList.length
          + (strainFlag (strainQueryVals entries now)).toList.length
          + (alignFlag (alignQueryVals db)).toList.length) ∧
      ((sleepFlag (sleepQueryVals db now)).toList.length
          + (strainFlag (strainQueryVals entries now)).toList.length
          + (alignFlag (alignQueryVals db)).toList.length = 1 →
        (computeCollapseWarning db entries now).downshift = false ∧
        renderCollapseWarning (computeCollapseWarning db entries now) = Banner.note) := by
  intro db entries now
  have hlen : ((sleepFlag (sleepQueryVals db now)).toList
      ++ (strainFlag (strainQueryVals entries now)).toList
      ++ (alignFlag (alignQueryVals db)).toList).length
      = (sleepFlag (sleepQueryVals db now)).toList.length
        + (strainFlag (strainQueryVals entries now)).toList.length
        + (alignFlag (alignQueryVals db)).toList.length := by
    rw [List.length_append, List.length_append]
  have hdown : (computeCollapseWarning db entries now).downshift
      = decide (2 ≤ ((sleepFlag (sleepQueryVals db now)).toList
        ++ (strainFlag (strainQueryVals entries now)).toList
        ++ (alignFlag (alignQueryVals db)).toList).length) := rfl
  have hflags : (computeCollapseWarning db entries now).flags
      = (sleepFlag (sleepQueryVals db now)).toList
        ++ (strainFlag (strainQueryVals entries now)).toList
        ++ (alignFlag (alignQueryVals db)).toList := rfl
  constructor
  · rw [hdown, hlen, decide_eq_true_iff]
  · intro h1
    have hds : (computeCollapseWarning db entries now).downshift = false := by
      rw [hdown, hlen, h1]
      rfl
    refine ⟨hds, ?_⟩
    rw [renderCollapseWarning, hds, if_neg (by simp),
      if_pos (by rw [hflags, hlen]; exact h1)]

/-- Closed witness for C2: with only the sleep signal firing, no downshift is
suggested and the note banner shows. -/
theorem downshift_iff_two_of_three_flags_witness :
    (computeCollapseWarning exSleepDb [] 100).downshift = false ∧
    renderCollapseWarning (computeCollapseWarning exSleepDb [] 100) = Banner.note :=
  (downshift_iff_two_of_three_flags exSleepDb [] 100).2 (by
    have h1 : sleepQueryVals exSleepDb 100 = [4, 4, 4] := by
      simp only [sleepQueryVals, exSleepDb, List.filterMap]
      norm_num
    have h2 : sleepFlag [4, 4, 4] = some ⟨"sleep", "high"⟩ := by
      norm_num [sleepFlag, avgOf]
    have h3 : strainFlag (strainQueryVals [] 100) = none := by
      simp [strainQueryVals, strainFlag]
    have h4 : alignFlag (alignQueryVals exSleepDb) = none := by
      have hq : alignQueryVals exSleepDb = [] := by
        simp only [alignQueryVals, exSleepDb, List.filterMap]
        simp
      rw [hq]
      simp [alignFlag]
    simp [h1, h2, h3, h4])

/-- C3 counterexample: in `exOldDb` every check-in lies outside the trailing
7-day window at time 100, so a signal restricted to that window (as the claim
reads) sees no values and must not fire; the code's alignment signal, whose
query has no time restriction, nevertheless fires. -/
theorem alignment_window_counterexample :
    (∀ r ∈ exOldDb, r.ts < 100 - 7) ∧
    specAlignQueryVals exOldDb 100 = [] ∧
    alignFlag (specAlignQueryVals exOldDb 100) = none ∧
    alignFlag (alignQueryVals exOldDb) = some ⟨"alignment", "medium"⟩ := by
  have hspec : specAlignQueryVals exOldDb 100 = [] := by
    norm_num [specAlignQueryVals, exOldDb]
  refine ⟨?_, hspec, ?_, ?_⟩
  · intro r hr
    simp only [exOldDb, List.mem_cons, List.not_mem_nil, or_false] at hr
    rcases hr with rfl | rfl | rfl <;> norm_num
  · rw [hspec]
    simp [alignFlag]
  · have hq : alignQueryVals exOldDb = [1, 1, 1 / 10] := by
      simp only [alignQueryVals, exOldDb, List.filterMap]
      norm_num [driftWindowBlocks]
    rw [hq]
    norm_num [alignFlag, avgOf]

/-- C3 (amended): the alignment-decline signal considers the most recent 5
non-null alignment values over the whole history (the query has no 7-day
restriction), ordered oldest-to-newest; it never fires with fewer than 3
values, and with at least 3 it fires (severity medium) iff the mean of the
second half is strictly below 80% of the mean of the first half. -/
theorem alignment_decline_recent_five :
    (∀ db : List CheckinRow,
      alignQueryVals db = (db.filterMap (fun r => r.alignmentRetro)).drop
        ((db.filterMap (fun r => r.alignmentRetro)).length - driftWindowBlocks)) ∧
    (∀ vals : List ℚ, vals.length < 3 → alignFlag vals = none) ∧
    (∀ vals : List ℚ, 3 ≤ vals.length →
      (alignFlag vals = some ⟨"alignment", "medium"⟩ ↔
        avgOf (vals.drop (vals.length / 2)) < avgOf (vals.take (vals.length / 2)) * 0.8) ∧
      (alignFlag vals = none ∨ alignFlag vals = some ⟨"alignment", "medium"⟩)) := by
  refine ⟨?_, ?_, ?_⟩
  · intro db
    rw [alignQueryVals, ← List.rtake_eq_reverse_take_reverse, List.rtake]
  · intro vals h
    rw [alignFlag, if_neg (by omega)]
  · intro vals h3
    rw [alignFlag, if_pos h3]
    by_cases hc : avgOf (vals.drop (vals.length / 2)) < avgOf (vals.take (vals.length / 2)) * 0.8
    · rw [if_pos hc]
      exact ⟨⟨fun _ => hc, fun _ => rfl⟩, Or.inr rfl⟩
    · rw [if_neg hc]
      constructor
      · constructor
        · intro hn
          exact absurd hn (by simp)
        · intro hcc
          exact absurd hcc hc
      · exact Or.inl rfl

/-- Closed witness for C3: with a single sample the alignment signal does not
fire. -/
theorem alignment_decline_recent_five_witness :
    alignFlag [(1 : ℚ)] = none :=
  alignment_decline_recent_five.2.1 [1] (by decide)

/-- C6: the sleep signal collects `hoursSlept` from the last 7 days, never
fires with fewer than 3 samples, fires iff the mean is below 6.5, with
severity high iff the mean is below 5.5 (medium otherwise); for the samples
[4,5,4,5,4,5,4] it fires with severity high. -/
theorem sleep_flag_thresholds :
    (∀ (db : List CheckinRow) (now : ℚ) (v : ℚ),
      v ∈ sleepQueryVals db now ↔ ∃ r ∈ db, now - 7 ≤ r.ts ∧ r.hoursSlept = some v) ∧
    (∀ vals : List ℚ, vals.length < 3 → sleepFlag vals = none) ∧
    (∀ vals : List ℚ, 3 ≤ vals.length →
      ((sleepFlag vals).isSome ↔ avgOf vals < 6.5) ∧
      (sleepFlag vals = some ⟨"sleep", "high"⟩ ↔ avgOf vals < 5.5) ∧
      (sleepFlag vals = some ⟨"sleep", "medium"⟩ ↔
        5.5 ≤ avgOf vals ∧ avgOf vals < 6.5)) ∧
    sleepFlag [4, 5, 4, 5, 4, 5, 4] = some ⟨"sleep", "high"⟩ := by
  refine ⟨?_, ?_, ?_, ?_⟩
  · intro db now v
    rw [sleepQueryVals, List.mem_filterMap]
    constructor
    · rintro ⟨r, hr, hf⟩
      by_cases hts : now - 7 ≤ r.ts
      · rw [if_pos hts] at hf
        exact ⟨r, hr, hts, hf⟩
      · rw [if_neg hts] at hf
        exact Option.noConfusion hf
    · rintro ⟨r, hr, hts, hv⟩
      exact ⟨r, hr, by rw [if_pos hts]; exact hv⟩
  · intro vals h
    rw [sleepFlag, if_neg (by omega)]
  · intro vals h3
    rw [sleepFlag, if_pos h3]
    by_cases h65 : avgOf vals < 6.5
    · rw [if_pos h65]
      by_cases h55 : avgOf vals < 5.5
      · rw [if_pos h55]
        refine ⟨by simp [h65], by simp [h55], ?_⟩
        constructor
        · intro hm
          have hsev : ("high" : String) = "medium" :=
            congrArg CollapseFlag.severity (Option.some.inj hm)
          exact absurd hsev (by decide)
        · rintro ⟨hge, _⟩
          exact absurd h55 (not_lt.mpr hge)
      · rw [if_neg h55]
        refine ⟨by simp [h65], ?_, ?_⟩
        · constructor
          · intro hm
            have hsev : ("medium" : String) = "high" :=
              congrArg CollapseFlag.severity (Option.some.inj hm)
            exact absurd hsev (by decide)
          · intro h5
            exact absurd h5 h55
        · constructor
          · intro _
            exact ⟨not_lt.mp h55, h65⟩
          · intro _
            rfl
    · rw [if_neg h65]
      refine ⟨by simp [h65], ?_, ?_⟩
      · constructor
        · intro hm
          exact Option.noConfusion hm
        · intro h5
          exact absurd (h5.trans (by norm_num)) h65
      · constructor
        · intro hm
          exact Option.noConfusion hm
        · rintro ⟨_, h6⟩
          exact absurd h6 h65
  · norm_num [sleepFlag, avgOf]

/-- Closed witness for C6: with fewer than 3 samples the sleep signal does
not fire. -/
theorem sleep_flag_thresholds_witness :
    sleepFlag [] = none :=
  sleep_flag_thresholds.2.1 [] (by decide)

/- ================================================================
   Bit-string facts for the recovery-code encoding
   ================================================================ -/

/-- A width-`w` bit string has length `w`. -/
theorem length_natToBits (w : Nat) : ∀ n, (natToBits w n).length = w := by
  induction w with
  | zero => intro n; rfl
  | succ w ih => intro n; simp [natToBits, ih]

/-- Parsing after appending one bit doubles and adds. -/
theorem bitsToNat_append_singleton (l : List Bool) (b : Bool) :
    bitsToNat (l ++ [b]) = 2 * bitsToNat l + b.toNat := by
  simp [bitsToNat, List.foldl_append]

/-- Parsing the width-`w` bit string of `n` recovers `n` modulo `2 ^ w`. -/
theorem bitsToNat_natToBits (w : Nat) : ∀ n, bitsToNat (natToBits w n) = n % 2 ^ w := by
  induction w with
  | zero =>
    intro n
    simp [natToBits, bitsToNat, Nat.mod_one]
  | succ w ih =>
    intro n
    simp only [natToBits]
    rw [bitsToNat_append_singleton, ih]
    have h2 : 2 ^ (w + 1) = 2 * 2 ^ w := by
      rw [Nat.pow_succ, Nat.mul_comm]
    rw [h2, Nat.mod_mul]
    have hb : (n % 2 == 1).toNat = n % 2 := by
      rcases Nat.mod_two_eq_zero_or_one n with h | h <;> simp [h]
    rw [hb]
    omega

/-- Printing the parse of a bit string at its own width recovers it. -/
theorem natToBits_bitsToNat : ∀ l : List Bool, natToBits l.length (bitsToNat l) = l := by
  intro l
  induction l using List.reverseRecOn with
  | nil => rfl
  | append_singleton l b ih =>
    have hlen : (l ++ [b]).length = l.length + 1 := by simp
    rw [hlen, bitsToNat_append_singleton]
    simp only [natToBits]
    have hdiv : (2 * bitsToNat l + b.toNat) / 2 = bitsToNat l := by
      cases b <;> simp <;> omega
    have hmod2 : (2 * bitsToNat l + b.toNat) % 2 = b.toNat := by
      cases b <;> simp <;> omega
    have hmod : ((2 * bitsToNat l + b.toNat) % 2 == 1) = b := by
      rw [hmod2]
      cases b <;> rfl
    rw [hdiv, hmod, ih]

/-- A bit string parses below `2 ^ length`. -/
theorem bitsToNat_lt (l : List Bool) : bitsToNat l < 2 ^ l.length := by
  induction l using List.reverseRecOn with
  | nil => simp [bitsToNat]
  | append_singleton l b ih =>
    have hlen : (l ++ [b]).length = l.length + 1 := by simp
    rw [hlen, bitsToNat_append_singleton, Nat.pow_succ]
    have ht : b.toNat ≤ 1 := by cases b <;> simp
    omega

/-- Every chunk produced by `chunk5Aux` has length 5. -/
theorem chunk5Aux_length : ∀ (l acc : List Bool), acc.length ≤ 4 →
    ∀ c ∈ chunk5Aux l acc, c.length = 5 := by
  intro l
  induction l with
  | nil =>
    intro acc hacc c hc
    by_cases he : acc.isEmpty
    · simp only [chunk5Aux, if_pos he] at hc
      exact absurd hc (List.not_mem_nil c)
    · simp only [chunk5Aux, if_neg he] at hc
      rcases List.mem_singleton.mp hc with rfl
      simp only [List.length_append, List.length_reverse, List.length_replicate]
      omega
  | cons b bs ih =>
    intro acc hacc c hc
    by_cases h4 : acc.length = 4
    · simp only [chunk5Aux, if_pos h4] at hc
      rcases List.mem_cons.mp hc with rfl | hc2
      · simp [h4]
      · exact ih [] (by simp) c hc2
    · simp only [chunk5Aux, if_neg h4] at hc
      exact ih (b :: acc) (by simp only [List.length_cons]; omega) c hc

/-- The chunks of `chunk5Aux` flatten back to the input plus at most 4
padding zeros. -/
theorem chunk5Aux_flatten : ∀ (l acc : List Bool), acc.length ≤ 4 →
    ∃ k, k < 5 ∧
      (chunk5Aux l acc).flatten = acc.reverse ++ l ++ List.replicate k false := by
  intro l
  induction l with
  | nil =>
    intro acc hacc
    by_cases he : acc.isEmpty
    · refine ⟨0, by omega, ?_⟩
      have ha : acc = [] := List.isEmpty_iff.mp he
      subst ha
      simp [chunk5Aux]
    · refine ⟨5 - acc.length, ?_, ?_⟩
      · have hne : acc ≠ [] := by simpa [List.isEmpty_iff] using he
        have hpos : 0 < acc.length := List.length_pos.mpr hne
        omega
      · simp only [chunk5Aux, if_neg he]
        simp
  | cons b bs ih =>
    intro acc hacc
    by_cases h4 : acc.length = 4
    · obtain ⟨k, hk, hj⟩ := ih [] (by simp)
      refine ⟨k, hk, ?_⟩
      simp only [chunk5Aux, if_pos h4, List.flatten_cons, hj]
      simp
    · obtain ⟨k, hk, hj⟩ := ih (b :: acc) (by simp only [List.length_cons]; omega)
      refine ⟨k, hk, ?_⟩
      simp only [chunk5Aux, if_neg h4, hj]
      simp

/-- The concatenated byte bit strings have length `8 * bytes`. -/
theorem length_flatten_map_natToBits (raw : List Nat) :
    ((raw.map (natToBits 8)).flatten).length = 8 * raw.length := by
  induction raw with
  | nil => simp
  | cons x xs ih =>
    simp only [List.map_cons, List.flatten_cons, List.length_append, ih,
      length_natToBits, List.length_cons]
    omega

/-- Reading 8 bits at offset `8 * j` of the concatenated byte bit strings
yields the bit string of byte `j`. -/
theorem flatten_map_natToBits_extract : ∀ (raw : List Nat) (j : Nat), j < raw.length →
    (((raw.map (natToBits 8)).flatten).drop (8 * j)).take 8
      = natToBits 8 (raw.getD j 0) := by
  intro raw
  induction raw with
  | nil =>
    intro j hj
    exact absurd hj (by simp)
  | cons x xs ih =>
    intro j hj
    cases j with
    | zero =>
      simp only [List.map_cons, List.flatten_cons, Nat.mul_zero, List.drop_zero]
      rw [List.take_append_of_le_length (by rw [length_natToBits]),
        List.take_of_length_le (by rw [length_natToBits])]
      rfl
    | succ j' =>
      simp only [List.map_cons, List.flatten_cons]
      have h8 : 8 * (j' + 1) = (natToBits 8 x).length + 8 * j' := by
        rw [length_natToBits]
        ring
      rw [h8, List.drop_append]
      exact ih j' (by simpa using hj)

/-- Indexing a list over its range with `getD` rebuilds the list. -/
theorem range_map_getD : ∀ raw : List Nat,
    (List.range raw.length).map (fun j => raw.getD j 0) = raw := by
  intro raw
  induction raw with
  | nil => rfl
  | cons x xs ih =>
    rw [List.length_cons, List.range_succ_eq_map]
    simp only [List.map_cons, List.map_map]
    have hc : ((fun j => (x :: xs).getD j 0) ∘ Nat.succ) = fun j => xs.getD j 0 := rfl
    rw [hc, ih]
    rfl

/-- Facts about the 32 alphabet characters, checked by evaluation. -/
theorem b32_char_facts : ∀ v < 32,
    (B32.getD v 'A') ∈ B32 ∧
    B32.indexOf (B32.getD v 'A') = v ∧
    isB32Char (B32.getD v 'A') = true ∧
    jsToUpper (B32.getD v 'A') = B32.getD v 'A' ∧
    jsToUpper (jsToLower (B32.getD v 'A')) = B32.getD v 'A' ∧
    ((B32.getD v 'A') == '-' || isJsSpace (B32.getD v 'A')) = false ∧
    ((jsToLower (B32.getD v 'A')) == '-' || isJsSpace (jsToLower (B32.getD v 'A'))) = false := by
  decide

/-- Every character emitted by `bytesToBase32` is an alphabet character. -/
theorem bytesToBase32_mem {raw : List Nat} {c : Char} (hc : c ∈ bytesToBase32 raw) :
    ∃ v, v < 32 ∧ c = B32.getD v 'A' := by
  rw [bytesToBase32] at hc
  rcases List.mem_map.mp hc with ⟨chunk, hchunk, rfl⟩
  have h5 : chunk.length = 5 := chunk5Aux_length _ [] (by simp) chunk hchunk
  refine ⟨bitsToNat chunk, ?_, rfl⟩
  have hlt := bitsToNat_lt chunk
  rw [h5] at hlt
  simpa using hlt

/-- Decoding undoes encoding: `base32ToBytes(bytesToBase32(raw))` recovers
any byte list. -/
theorem base32ToBytes_bytesToBase32 (raw : List Nat) (hb : ∀ x ∈ raw, x < 256) :
    base32ToBytes (bytesToBase32 raw) = raw := by
  have hclean : b32CleanOf (bytesToBase32 raw) = bytesToBase32 raw := by
    rw [b32CleanOf]
    have hmap : (bytesToBase32 raw).map jsToUpper = (bytesToBase32 raw).map id :=
      List.map_congr_left (fun c hc => by
        rcases bytesToBase32_mem hc with ⟨v, hv, rfl⟩
        exact (b32_char_facts v hv).2.2.2.1)
    rw [hmap, List.map_id]
    exact List.filter_eq_self.mpr (fun c hc => by
      rcases bytesToBase32_mem hc with ⟨v, hv, rfl⟩
      exact (b32_char_facts v hv).2.2.1)
  have hchunks5 : ∀ c ∈ chunk5Aux ((raw.map (natToBits 8)).flatten) [], c.length = 5 :=
    chunk5Aux_length _ [] (by simp)
  have hmap2 : (bytesToBase32 raw).map
      (fun c => if c ∈ B32 then natToBits 5 (B32.indexOf c) else [])
      = chunk5Aux ((raw.map (natToBits 8)).flatten) [] := by
    rw [bytesToBase32, List.map_map]
    have hid : ∀ c ∈ chunk5Aux ((raw.map (natToBits 8)).flatten) [],
        ((fun c => if c ∈ B32 then natToBits 5 (B32.indexOf c) else []) ∘
          (fun c => B32.getD (bitsToNat c) 'A')) c = id c := by
      intro c hc
      have h5 := hchunks5 c hc
      have hv : bitsToNat c < 32 := by
        have hlt := bitsToNat_lt c
        rw [h5] at hlt
        simpa using hlt
      have hf := b32_char_facts (bitsToNat c) hv
      simp only [Function.comp_apply, id_eq]
      rw [if_pos hf.1, hf.2.1]
      have hrt := natToBits_bitsToNat c
      rw [h5] at hrt
      exact hrt
    rw [List.map_congr_left hid, List.map_id]
  obtain ⟨k, hk, hflat⟩ :=
    chunk5Aux_flatten ((raw.map (natToBits 8)).flatten) [] (by simp)
  simp only [List.reverse_nil, List.nil_append] at hflat
  have hbits : b32BitsOf (bytesToBase32 raw)
      = (raw.map (natToBits 8)).flatten ++ List.replicate k false := by
    rw [b32BitsOf, hclean, hmap2, hflat]
  have hblen : ((raw.map (natToBits 8)).flatten).length = 8 * raw.length :=
    length_flatten_map_natToBits raw
  have hdivlen : (b32BitsOf (bytesToBase32 raw)).length / 8 = raw.length := by
    rw [hbits, List.length_append, List.length_replicate, hblen]
    omega
  rw [base32ToBytes, hdivlen]
  have hcong : ∀ j ∈ List.range raw.length,
      bitsToNat (((b32BitsOf (bytesToBase32 raw)).drop (8 * j)).take 8)
        = raw.getD j 0 := by
    intro j hj
    rw [List.mem_range] at hj
    have hdropped : ((b32BitsOf (bytesToBase32 raw)).drop (8 * j)).take 8
        = (((raw.map (natToBits 8)).flatten).drop (8 * j)).take 8 := by
      rw [hbits, List.drop_append_eq_append_drop,
        List.take_append_of_le_length (by rw [List.length_drop, hblen]; omega)]
    rw [hdropped, flatten_map_natToBits_extract raw j hj, bitsToNat_natToBits]
    have hmem : raw.getD j 0 ∈ raw := by
      rw [List.getD_eq_getElem raw 0 hj]
      exact List.getElem_mem hj
    exact Nat.mod_eq_of_lt (by simpa using hb _ hmem)
  rw [List.map_congr_left hcong, range_map_getD]

/- ================================================================
   Dash grouping facts
   ================================================================ -/

/-- The groups of `group4Aux` flatten back to the input. -/
theorem group4Aux_flatten : ∀ (l acc : List Char),
    (group4Aux l acc).flatten = acc.reverse ++ l := by
  intro l
  induction l with
  | nil =>
    intro acc
    by_cases he : acc.isEmpty
    · have ha : acc = [] := List.isEmpty_iff.mp he
      subst ha
      simp [group4Aux]
    · simp only [group4Aux, if_neg he]
      simp
  | cons c cs ih =>
    intro acc
    by_cases h3 : acc.length = 3
    · simp only [group4Aux, if_pos h3, List.flatten_cons, ih []]
      simp
    · simp only [group4Aux, if_neg h3, ih (c :: acc)]
      simp

/-- A character of a dash join is a dash or a character of some group. -/
theorem mem_joinDash : ∀ (gs : List (List Char)) (c : Char), c ∈ joinDash gs →
    c = '-' ∨ ∃ g ∈ gs, c ∈ g := by
  intro gs
  induction gs with
  | nil =>
    intro c hc
    exact absurd hc (List.not_mem_nil c)
  | cons g gs ih =>
    intro c hc
    cases gs with
    | nil =>
      simp only [joinDash] at hc
      exact Or.inr ⟨g, List.mem_cons_self g [], hc⟩
    | cons g' gs' =>
      simp only [joinDash] at hc
      rcases List.mem_append.mp hc with hg | htl
      · exact Or.inr ⟨g, List.mem_cons_self g _, hg⟩
      · rcases List.mem_cons.mp htl with rfl | htl'
        · exact Or.inl rfl
        · rcases ih c htl' with hd | ⟨g2, hg2, hcg2⟩
          · exact Or.inl hd
          · exact Or.inr ⟨g2, List.mem_cons_of_mem g hg2, hcg2⟩

/-- Filtering a dash join with a predicate that rejects the dash filters the
groups individually. -/
theorem filter_joinDash (p : Char → Bool) (hp : p '-' = false) :
    ∀ gs : List (List Char),
      (joinDash gs).filter p = ((gs.map (List.filter p)).flatten) := by
  intro gs
  induction gs with
  | nil => rfl
  | cons g gs ih =>
    cases gs with
    | nil =>
      simp [joinDash]
    | cons g' gs' =>
      simp only [joinDash] at ih ⊢
      rw [List.filter_append, List.filter_cons]
      simp only [hp, if_neg]
      rw [ih]
      simp

/-- Every character of a recovery code is a dash or an alphabet character. -/
theorem keyToRecoveryCode_mem (raw : List Nat) :
    ∀ c ∈ keyToRecoveryCode raw, c = '-' ∨ ∃ v, v < 32 ∧ c = B32.getD v 'A' := by
  intro c hc
  rw [keyToRecoveryCode] at hc
  rcases mem_joinDash _ c hc with hd | ⟨g, hg, hcg⟩
  · exact Or.inl hd
  · have hcm : c ∈ bytesToBase32 raw := by
      have hfl := group4Aux_flatten (bytesToBase32 raw) []
      simp only [List.reverse_nil, List.nil_append] at hfl
      rw [← hfl]
      exact List.mem_flatten.mpr ⟨g, hg, hcg⟩
    rcases bytesToBase32_mem hcm with ⟨v, hv, he⟩
    exact Or.inr ⟨v, hv, he⟩

/-- Cleaning the dash-grouped recovery code recovers the plain base32 text. -/
theorem recoveryClean_keyToRecoveryCode (raw : List Nat) :
    recoveryClean (keyToRecoveryCode raw) = bytesToBase32 raw := by
  rw [recoveryClean, keyToRecoveryCode, filter_joinDash _ (by decide)]
  have hall : ∀ g ∈ group4Aux (bytesToBase32 raw) [],
      g.filter (fun c => !(c == '-' || isJsSpace c)) = id g := by
    intro g hg
    simp only [id_eq]
    refine List.filter_eq_self.mpr (fun c hcg => ?_)
    have hcm : c ∈ bytesToBase32 raw := by
      have hfl := group4Aux_flatten (bytesToBase32 raw) []
      simp only [List.reverse_nil, List.nil_append] at hfl
      rw [← hfl]
      exact List.mem_flatten.mpr ⟨g, hg, hcg⟩
    rcases bytesToBase32_mem hcm with ⟨v, hv, rfl⟩
    rw [(b32_char_facts v hv).2.2.2.2.2.1]
    rfl
  rw [List.map_congr_left hall, List.map_id]
  have hfl := group4Aux_flatten (bytesToBase32 raw) []
  simp only [List.reverse_nil, List.nil_append] at hfl
  rw [hfl]
  have hmap : (bytesToBase32 raw).map jsToUpper = (bytesToBase32 raw).map id :=
    List.map_congr_left (fun c hc => by
      rcases bytesToBase32_mem hc with ⟨v, hv, rfl⟩
      exact (b32_char_facts v hv).2.2.2.1)
  rw [hmap, List.map_id]

/-- Cleaning is insensitive to per-character lower-casing of a recovery
code whose characters are dashes or alphabet characters. -/
theorem filter_map_upper_congr : ∀ (code code' : List Char),
    List.Forall₂ (fun c c' => c' = c ∨ c' = jsToLower c) code code' →
    (∀ c ∈ code, c = '-' ∨ ∃ v, v < 32 ∧ c = B32.getD v 'A') →
    (code'.filter (fun c => !(c == '-' || isJsSpace c))).map jsToUpper
      = (code.filter (fun c => !(c == '-' || isJsSpace c))).map jsToUpper := by
  intro code code' hf
  induction hf with
  | nil =>
    intro _
    rfl
  | cons hR htl ih =>
    rename_i a b l₁ l₂
    intro hmem
    have htail : ∀ c ∈ l₁, c = '-' ∨ ∃ v, v < 32 ∧ c = B32.getD v 'A' :=
      fun c hc => hmem c (List.mem_cons_of_mem a hc)
    rcases hmem a (List.mem_cons_self a l₁) with rfl | ⟨v, hv, rfl⟩
    · have hkb : (!(b == '-' || isJsSpace b)) = false := by
        rcases hR with rfl | rfl <;> decide
      have hka : (!(('-' : Char) == '-' || isJsSpace '-')) = false := by decide
      simp only [List.filter_cons, hka, hkb, Bool.false_eq_true, if_false]
      exact ih htail
    · have hfacts := b32_char_facts v hv
      have hka : (!((B32.getD v 'A') == '-' || isJsSpace (B32.getD v 'A'))) = true := by
        rw [hfacts.2.2.2.2.2.1]
        rfl
      have hkb : (!(b == '-' || isJsSpace b)) = true := by
        rcases hR with rfl | rfl
        · exact hka
        · rw [hfacts.2.2.2.2.2.2]
          rfl
      have hub : jsToUpper b = jsToUpper (B32.getD v 'A') := by
        rcases hR with rfl | rfl
        · rfl
        · rw [hfacts.2.2.2.2.1, hfacts.2.2.2.1]
      simp only [List.filter_cons, hka, hkb, if_true, List.map_cons]
      rw [hub, ih htail]

/-- C10: base32 encode/decode round-trips every (32-byte) key; the recovery
code importer accepts the dash-grouped output under per-character
lower-casing; any accepted code yields exactly 32 bytes. -/
theorem recovery_code_roundtrip :
    (∀ raw : List Nat, raw.length = 32 → (∀ x ∈ raw, x < 256) →
      base32ToBytes (bytesToBase32 raw) = raw ∧
      recoveryCodeToKey (keyToRecoveryCode raw) = some raw ∧
      ∀ code : List Char,
        List.Forall₂ (fun c c' => c' = c ∨ c' = jsToLower c)
          (keyToRecoveryCode raw) code →
        recoveryCodeToKey code = some raw) ∧
    (∀ (code : List Char) (r : List Nat), recoveryCodeToKey code = some r →
      r.length = 32) := by
  constructor
  · intro raw hlen hb
    have hrt : base32ToBytes (bytesToBase32 raw) = raw :=
      base32ToBytes_bytesToBase32 raw hb
    have hgen : ∀ code : List Char,
        List.Forall₂ (fun c c' => c' = c ∨ c' = jsToLower c)
          (keyToRecoveryCode raw) code →
        recoveryCodeToKey code = some raw := by
      intro code hf
      have hclean2 : recoveryClean code = recoveryClean (keyToRecoveryCode raw) := by
        rw [recoveryClean, recoveryClean]
        exact filter_map_upper_congr _ _ hf (keyToRecoveryCode_mem raw)
      rw [recoveryCodeToKey, hclean2, recoveryClean_keyToRecoveryCode raw, hrt,
        if_pos hlen]
    refine ⟨hrt, ?_, hgen⟩
    exact hgen _ (List.forall₂_same.mpr (fun c _ => Or.inl rfl))
  · intro code r hr
    rw [recoveryCodeToKey] at hr
    by_cases hl : (base32ToBytes (recoveryClean code)).length = 32
    · rw [if_pos hl] at hr
      cases Option.some.inj hr
      exact hl
    · rw [if_neg hl] at hr
      exact Option.noConfusion hr

/-- Closed witness for C10 at the all-zero 32-byte key. -/
theorem recovery_code_roundtrip_witness :
    recoveryCodeToKey (keyToRecoveryCode (List.replicate 32 0)) =
      some (List.replicate 32 0) :=
  ((recovery_code_roundtrip.1 (List.replicate 32 0) (by decide) (by decide)).2.1)
